import Mathlib

/-!
Verification of the `ksuid` package (inovacc/ksuid).

A KSUID is a 20-byte identifier: a big-endian 32-bit corrected timestamp
followed by a 16-byte payload.  This file embeds the package's data model
and operations (`ksuid.go`) and proves the spec's properties about them.
Go byte slices are `List (Fin 256)`; Go strings are byte slices as well.
The base62 codec and the 128-bit integer helpers are not part of the
sources at hand (only their callers are), so they are modelled from the
spec, as marked on each such definition.
-/

/-! ## Generic positional digit machinery (big-endian digit lists) -/

/-- Value of a big-endian digit list in base `B`. -/
def digitsToNat (B : Nat) (l : List Nat) : Nat :=
  l.foldl (fun a d => a * B + d) 0

/-- Fixed-width big-endian digit expansion of `n` in base `B`. -/
def natToDigits (B : Nat) : Nat → Nat → List Nat
  | 0, _ => []
  | len + 1, n => natToDigits B len (n / B) ++ [n % B]

theorem length_natToDigits (B len n : Nat) : (natToDigits B len n).length = len := by
  induction len generalizing n with
  | zero => rfl
  | succ k ih => simp [natToDigits, ih]

theorem natToDigits_lt (B len n : Nat) (hB : 0 < B) :
    ∀ d ∈ natToDigits B len n, d < B := by
  induction len generalizing n with
  | zero => intro d hd; simp [natToDigits] at hd
  | succ k ih =>
    intro d hd
    simp only [natToDigits, List.mem_append, List.mem_singleton] at hd
    rcases hd with hd | rfl
    · exact ih _ d hd
    · exact Nat.mod_lt _ hB

theorem foldl_digits (B : Nat) (l : List Nat) (init : Nat) :
    l.foldl (fun a d => a * B + d) init = init * B ^ l.length + digitsToNat B l := by
  induction l generalizing init with
  | nil => simp [digitsToNat]
  | cons d l ih =>
    have hexp : digitsToNat B (d :: l) = List.foldl (fun a x => a * B + x) (0 * B + d) l := rfl
    simp only [List.foldl_cons, List.length_cons, hexp]
    rw [ih (init * B + d), ih (0 * B + d)]
    ring

theorem digitsToNat_append (B : Nat) (l1 l2 : List Nat) :
    digitsToNat B (l1 ++ l2) = digitsToNat B l1 * B ^ l2.length + digitsToNat B l2 := by
  simp only [digitsToNat, List.foldl_append]
  rw [foldl_digits]
  rfl

theorem digitsToNat_lt (B : Nat) (l : List Nat)
    (h : ∀ d ∈ l, d < B) : digitsToNat B l < B ^ l.length := by
  induction l with
  | nil => simp [digitsToNat]
  | cons d l ih =>
    have hd : d < B := h d (List.mem_cons_self d l)
    have hl : digitsToNat B l < B ^ l.length := ih fun x hx => h x (List.mem_cons_of_mem d hx)
    have : digitsToNat B (d :: l) = d * B ^ l.length + digitsToNat B l := by
      have := digitsToNat_append B [d] l
      simpa [digitsToNat] using this
    rw [this, List.length_cons, pow_succ']
    calc d * B ^ l.length + digitsToNat B l
        < d * B ^ l.length + B ^ l.length := by omega
      _ = (d + 1) * B ^ l.length := by ring
      _ ≤ B * B ^ l.length := Nat.mul_le_mul_right _ (by omega)

theorem digitsToNat_natToDigits (B len n : Nat) :
    digitsToNat B (natToDigits B len n) = n % B ^ len := by
  induction len generalizing n with
  | zero => simp [natToDigits, digitsToNat, Nat.mod_one]
  | succ k ih =>
    simp only [natToDigits, digitsToNat_append]
    rw [ih (n / B)]
    have h1 : digitsToNat B [n % B] = n % B := by simp [digitsToNat]
    rw [h1]
    simp only [List.length_singleton, pow_one]
    rw [pow_succ, mul_comm (B ^ k) B, Nat.mod_mul]
    ring

theorem natToDigits_digitsToNat (B : Nat) (l : List Nat)
    (h : ∀ d ∈ l, d < B) : natToDigits B l.length (digitsToNat B l) = l := by
  induction l using List.reverseRecOn with
  | nil => simp [natToDigits, digitsToNat]
  | append_singleton l d ih =>
    have hd : d < B := h d (by simp)
    have hB : 0 < B := by omega
    have hl : ∀ x ∈ l, x < B := fun x hx => h x (by simp [hx])
    have hval : digitsToNat B (l ++ [d]) = digitsToNat B l * B + d := by
      simp [digitsToNat_append, digitsToNat]
    rw [List.length_append, List.length_singleton, hval]
    simp only [natToDigits]
    have hdiv : (digitsToNat B l * B + d) / B = digitsToNat B l := by
      rw [mul_comm, Nat.mul_add_div hB, Nat.div_eq_of_lt hd, Nat.add_zero]
    have hmod : (digitsToNat B l * B + d) % B = d := by
      rw [mul_comm, Nat.mul_add_mod, Nat.mod_eq_of_lt hd]
    rw [hdiv, hmod, ih hl]

/-! ## Lexicographic three-way comparison (Go `bytes.Compare` / string order) -/

/-- Three-way lexicographic comparison of digit lists, a strict prefix being
smaller — the order computed by Go's `bytes.Compare` and string comparison. -/
def lexCompare : List Nat → List Nat → Ordering
  | [], [] => .eq
  | [], _ :: _ => .lt
  | _ :: _, [] => .gt
  | a :: l1, b :: l2 => if a < b then .lt else if b < a then .gt else lexCompare l1 l2

/-- The `int` Go comparison functions return for an `Ordering`. -/
def ordToInt : Ordering → Int
  | .lt => -1
  | .eq => 0
  | .gt => 1

/-- On equal-length lists of digits below `B`, lexicographic order is the order
of the base-`B` values. -/
theorem lexCompare_eq_compare (B : Nat) (l1 l2 : List Nat)
    (hlen : l1.length = l2.length)
    (h1 : ∀ d ∈ l1, d < B) (h2 : ∀ d ∈ l2, d < B) :
    lexCompare l1 l2 = compare (digitsToNat B l1) (digitsToNat B l2) := by
  induction l1 generalizing l2 with
  | nil =>
    cases l2 with
    | nil => simp [lexCompare, digitsToNat, Nat.compare_def_lt]
    | cons b t => simp at hlen
  | cons a t1 ih =>
    cases l2 with
    | nil => simp at hlen
    | cons b t2 =>
      simp only [List.length_cons, Nat.succ.injEq] at hlen
      have ha : a < B := h1 a (List.mem_cons_self a t1)
      have hb : b < B := h2 b (List.mem_cons_self b t2)
      have ht1 : ∀ d ∈ t1, d < B := fun d hd => h1 d (List.mem_cons_of_mem a hd)
      have ht2 : ∀ d ∈ t2, d < B := fun d hd => h2 d (List.mem_cons_of_mem b hd)
      have hv1 : digitsToNat B (a :: t1) = a * B ^ t1.length + digitsToNat B t1 := by
        simpa [digitsToNat] using digitsToNat_append B [a] t1
      have hv2 : digitsToNat B (b :: t2) = b * B ^ t2.length + digitsToNat B t2 := by
        simpa [digitsToNat] using digitsToNat_append B [b] t2
      have hd1 : digitsToNat B t1 < B ^ t1.length := digitsToNat_lt B t1 ht1
      have hd2 : digitsToNat B t2 < B ^ t2.length := digitsToNat_lt B t2 ht2
      rw [← hlen] at hd2
      rw [hv1, hv2, ← hlen]
      simp only [lexCompare]
      by_cases hab : a < b
      · have : a * B ^ t1.length + digitsToNat B t1 < b * B ^ t1.length + digitsToNat B t2 := by
          have : (a + 1) * B ^ t1.length ≤ b * B ^ t1.length :=
            Nat.mul_le_mul_right _ hab
          nlinarith
        simp [hab, Nat.compare_eq_lt.2 this]
      · by_cases hba : b < a
        · have : b * B ^ t1.length + digitsToNat B t2 < a * B ^ t1.length + digitsToNat B t1 := by
            have : (b + 1) * B ^ t1.length ≤ a * B ^ t1.length :=
              Nat.mul_le_mul_right _ hba
            nlinarith
          simp [hab, hba, Nat.compare_eq_gt.2 this]
        · have hab' : a = b := by omega
          subst hab'
          simp only [hab, hba, if_false, ih t2 hlen ht1 ht2]
          rcases Nat.lt_trichotomy (digitsToNat B t1) (digitsToNat B t2) with h | h | h
          · rw [Nat.compare_eq_lt.2 h, Nat.compare_eq_lt.2 (by omega)]
          · rw [h, Nat.compare_eq_eq.2 rfl, Nat.compare_eq_eq.2 rfl]
          · rw [Nat.compare_eq_gt.2 h, Nat.compare_eq_gt.2 (by omega)]

/-- Mapping a digit substitution that is strictly monotone below `B` over two
lists of digits below `B` does not change their lexicographic comparison. -/
theorem lexCompare_map_mono (B : Nat) (f : Nat → Nat) (l1 l2 : List Nat)
    (hf : ∀ a b, a < B → b < B → (f a < f b ↔ a < b))
    (h1 : ∀ d ∈ l1, d < B) (h2 : ∀ d ∈ l2, d < B) :
    lexCompare (l1.map f) (l2.map f) = lexCompare l1 l2 := by
  induction l1 generalizing l2 with
  | nil => cases l2 <;> simp [lexCompare]
  | cons a t1 ih =>
    cases l2 with
    | nil => simp [lexCompare]
    | cons b t2 =>
      have ha : a < B := h1 a (List.mem_cons_self a t1)
      have hb : b < B := h2 b (List.mem_cons_self b t2)
      have ht1 : ∀ d ∈ t1, d < B := fun d hd => h1 d (List.mem_cons_of_mem a hd)
      have ht2 : ∀ d ∈ t2, d < B := fun d hd => h2 d (List.mem_cons_of_mem b hd)
      simp only [List.map_cons, lexCompare]
      by_cases h : a < b
      · simp [h, (hf a b ha hb).2 h]
      · by_cases h' : b < a
        · have hfa : ¬ f a < f b := fun hc => h ((hf a b ha hb).1 hc)
          simp [h, h', hfa, (hf b a hb ha).2 h']
        · have heq : a = b := by omega
          subst heq
          have hfa : ¬ f a < f a := lt_irrefl _
          simp [h, hfa, ih t2 ht1 ht2]

/-! ## Bytes as `Fin 256` digit lists -/

/-- Big-endian value of a byte string (Go `[]byte`). -/
def bytesToNat (l : List (Fin 256)) : Nat := digitsToNat 256 (l.map Fin.val)

/-- The byte a `Nat` truncates to. -/
def byteOfNat (n : Nat) : Fin 256 := ⟨n % 256, Nat.mod_lt n (by norm_num)⟩

/-- Fixed-width big-endian byte encoding of `n`. -/
def natToBytes (len n : Nat) : List (Fin 256) := (natToDigits 256 len n).map byteOfNat

theorem length_natToBytes (len n : Nat) : (natToBytes len n).length = len := by
  simp [natToBytes, length_natToDigits]

theorem map_val_natToBytes (len n : Nat) :
    (natToBytes len n).map Fin.val = natToDigits 256 len n := by
  rw [natToBytes, List.map_map]
  have h : ∀ d ∈ natToDigits 256 len n, (Fin.val ∘ byteOfNat) d = id d := by
    intro d hd
    have : d < 256 := natToDigits_lt 256 len n (by norm_num) d hd
    simp [byteOfNat, Nat.mod_eq_of_lt this]
  rw [List.map_congr_left h, List.map_id]

theorem bytesToNat_natToBytes (len n : Nat) :
    bytesToNat (natToBytes len n) = n % 256 ^ len := by
  rw [bytesToNat, map_val_natToBytes, digitsToNat_natToDigits]

theorem natToBytes_bytesToNat (l : List (Fin 256)) :
    natToBytes l.length (bytesToNat l) = l := by
  rw [natToBytes, bytesToNat]
  have hlen : l.length = (l.map Fin.val).length := by simp
  rw [hlen, natToDigits_digitsToNat 256 (l.map Fin.val) (by simp [Fin.isLt])]
  rw [List.map_map]
  have : (fun v : Fin 256 => byteOfNat v.val) = id := by
    funext v
    simp [byteOfNat, Fin.ext_iff, Nat.mod_eq_of_lt v.isLt]
  simp only [Function.comp_def, this]
  exact List.map_id l

theorem bytesToNat_lt (l : List (Fin 256)) : bytesToNat l < 256 ^ l.length := by
  have := digitsToNat_lt 256 (l.map Fin.val) (by simp [Fin.isLt])
  simpa [bytesToNat] using this

theorem bytesToNat_append (l1 l2 : List (Fin 256)) :
    bytesToNat (l1 ++ l2) = bytesToNat l1 * 256 ^ l2.length + bytesToNat l2 := by
  simp [bytesToNat, digitsToNat_append]

/-! ## The KSUID value type (`ksuid.go`) -/

/-- Go `epochStamp`: KSUID's custom epoch, in Unix seconds. -/
def epochStamp : Int := 1400000000

def timestampLengthInBytes : Nat := 4

def payloadLengthInBytes : Nat := 16

/-- Go `byteLength = 20`. -/
def byteLength : Nat := timestampLengthInBytes + payloadLengthInBytes

def stringEncodedLength : Nat := 27

/-- KSUIDs are 20 bytes long — `type KSUID [byteLength]byte`. -/
def KSUID := { l : List (Fin 256) // l.length = byteLength }

instance : DecidableEq KSUID := fun a b =>
  decidable_of_iff (a.val = b.val) Subtype.ext_iff.symm

/-- Go `Nil`: the all-zero KSUID. -/
def KSUID.Nil : KSUID := ⟨List.replicate byteLength 0, List.length_replicate _ _⟩

/-- Go `Max`: the all-0xFF KSUID. -/
def KSUID.Max : KSUID := ⟨List.replicate byteLength 255, List.length_replicate _ _⟩

/-- Go `Bytes()`: the raw 20 bytes. -/
def KSUID.Bytes (k : KSUID) : List (Fin 256) := k.val

/-- Go `Timestamp()`: big-endian uint32 read from the first 4 bytes. -/
def KSUID.Timestamp (k : KSUID) : Nat := bytesToNat (k.val.take timestampLengthInBytes)

/-- Go `Payload()`: the 16 bytes after the timestamp. -/
def KSUID.Payload (k : KSUID) : List (Fin 256) := k.val.drop timestampLengthInBytes

/-- Go `IsNil()`: equality with the `Nil` sentinel. -/
def KSUID.IsNil (k : KSUID) : Bool := k = KSUID.Nil

/-! ## Base62 codec (modelled from the spec; `base62.go` is not among the
sources at hand, only its callers are) -/

/-- Modelled from the spec: the rank of an ASCII byte in the base62 alphabet
`0-9 A-Z a-z` (digit rank = standard base62 rank), `none` for a byte outside
the 62-symbol alphabet. -/
def base62Value (c : Fin 256) : Option Nat :=
  if 48 ≤ c.val ∧ c.val ≤ 57 then some (c.val - 48)
  else if 65 ≤ c.val ∧ c.val ≤ 90 then some (c.val - 65 + 10)
  else if 97 ≤ c.val ∧ c.val ≤ 122 then some (c.val - 97 + 36)
  else none

/-- Modelled from the spec: the ASCII byte of base62 digit rank `d`. -/
def base62Char (d : Nat) : Fin 256 :=
  if d < 10 then byteOfNat (48 + d)
  else if d < 36 then byteOfNat (65 + (d - 10))
  else byteOfNat (97 + (d - 36))

/-- Modelled from the spec: `fastAppendEncodeBase62` — append to `dst` the
27-character base62 rendering of the 20-byte `src`, the base62 digits of its
big-endian value left-padded with the zero digit to exactly 27 characters. -/
def fastAppendEncodeBase62 (dst src : List (Fin 256)) : List (Fin 256) :=
  dst ++ (natToDigits 62 stringEncodedLength (bytesToNat src)).map base62Char

/-- Base62 ranks of a byte string; `none` if any byte is outside the alphabet. -/
def base62Ranks : List (Fin 256) → Option (List Nat)
  | [] => some []
  | c :: cs =>
    match base62Value c, base62Ranks cs with
    | some r, some rs => some (r :: rs)
    | _, _ => none

/-- Modelled from the spec: `fastDecodeBase62` — read the string as a base62
number; fail when a character is outside the alphabet or the value does not
fit in 160 bits; otherwise the 20-byte big-endian encoding of the value. -/
def fastDecodeBase62 (src : List (Fin 256)) : Option (List (Fin 256)) :=
  (base62Ranks src).bind fun rs =>
    if digitsToNat 62 rs < 256 ^ byteLength then
      some (natToBytes byteLength (digitsToNat 62 rs))
    else none

/-- Go `Append`: `fastAppendEncodeBase62(b, k[:])`. -/
def KSUID.Append (k : KSUID) (b : List (Fin 256)) : List (Fin 256) :=
  fastAppendEncodeBase62 b k.val

/-- Go `String()`: the 27-character base62 rendering (Go string = byte string). -/
def KSUID.String (k : KSUID) : List (Fin 256) := k.Append []

/-! ## Constructors and their errors (`ksuid.go`) -/

/-- The package's error values (`errSize`, `errStrSize`, `errStrValue`,
`errPayloadSize`, and a failed entropy read). -/
inductive KsuidError
  | invalidSize
  | invalidStringSize
  | invalidStringValue
  | invalidPayloadSize
  | randomSourceError
deriving DecidableEq

/-- Go `FromBytes`: a Go `(KSUID, error)` pair; `errSize` unless exactly 20 bytes. -/
def FromBytes (b : List (Fin 256)) : KSUID × Option KsuidError :=
  if h : b.length ≠ byteLength then (KSUID.Nil, some .invalidSize)
  else (⟨b, of_not_not h⟩, none)

/-- Go `FromBytesOrNil`: swallow the error, return `Nil` in its place. -/
def FromBytesOrNil (b : List (Fin 256)) : KSUID :=
  match FromBytes b with
  | (_, some _) => KSUID.Nil
  | (id, none) => id

/-- Go `timeToCorrectedUTCTimestamp`: `uint32(t.Unix() - epochStamp)` — Go's
int64-to-uint32 conversion keeps the low 32 bits.  `time.Time` enters this
package only through `Unix()`, so a time is modelled by its Unix seconds. -/
def timeToCorrectedUTCTimestamp (t : Int) : Nat :=
  ((t - epochStamp) % (2 ^ 32 : Int)).toNat

/-- Go `FromParts`: timestamp bytes from the time, then the 16 payload bytes. -/
def FromParts (t : Int) (payload : List (Fin 256)) : KSUID × Option KsuidError :=
  if h : payload.length ≠ payloadLengthInBytes then (KSUID.Nil, some .invalidPayloadSize)
  else
    (⟨natToBytes timestampLengthInBytes (timeToCorrectedUTCTimestamp t) ++ payload, by
      simp [length_natToBytes, of_not_not h, byteLength]⟩, none)

/-- Go `FromPartsOrNil`: swallow the error, return `Nil` in its place. -/
def FromPartsOrNil (t : Int) (payload : List (Fin 256)) : KSUID :=
  match FromParts t payload with
  | (_, some _) => KSUID.Nil
  | (id, none) => id

/-- Go `Parse`: length check, base62 decode (its failure reported as
`errStrValue`), then `FromBytes` on the decoded 20 bytes. -/
def Parse (s : List (Fin 256)) : KSUID × Option KsuidError :=
  if s.length ≠ stringEncodedLength then (KSUID.Nil, some .invalidStringSize)
  else
    match fastDecodeBase62 s with
    | none => (KSUID.Nil, some .invalidStringValue)
    | some dst => FromBytes dst

/-- Go `ParseOrNil`: swallow the error, return `Nil` in its place. -/
def ParseOrNil (s : List (Fin 256)) : KSUID :=
  match Parse s with
  | (_, some _) => KSUID.Nil
  | (id, none) => id

/-- Go `NewRandomWithTime`: the one `io.ReadAtLeast` on the random source either
fills the 16-byte buffer or fails; the outcome is passed in explicitly
(`none` = failed read), everything after it is as in the source. -/
def NewRandomWithTime (t : Int)
    (rb : Option { l : List (Fin 256) // l.length = payloadLengthInBytes }) :
    KSUID × Option KsuidError :=
  match rb with
  | none => (KSUID.Nil, some .randomSourceError)
  | some buf =>
    (⟨natToBytes timestampLengthInBytes (timeToCorrectedUTCTimestamp t) ++ buf.val, by
      simp [length_natToBytes, buf.property, byteLength]⟩, none)

/-- Go `Compare`: `bytes.Compare` of the 20-byte forms. -/
def Compare (a b : KSUID) : Int :=
  ordToInt (lexCompare (a.val.map Fin.val) (b.val.map Fin.val))

/-! ## Base62 alphabet facts -/

theorem base62Char_val (d : Nat) (hd : d < 62) :
    (base62Char d).val = if d < 10 then 48 + d else if d < 36 then 55 + d else 61 + d := by
  simp only [base62Char, byteOfNat]
  split_ifs with h1 h2 <;> simp only [] <;> rw [Nat.mod_eq_of_lt (by omega)] <;> omega

theorem base62Char_strictMono (a b : Nat) (ha : a < 62) (hb : b < 62) :
    ((base62Char a).val < (base62Char b).val ↔ a < b) := by
  rw [base62Char_val a ha, base62Char_val b hb]
  split_ifs <;> omega

theorem base62Value_lt (c : Fin 256) (r : Nat) (h : base62Value c = some r) : r < 62 := by
  simp only [base62Value] at h
  split_ifs at h with h1 h2 h3
  · have := Option.some.inj h; omega
  · have := Option.some.inj h; omega
  · have := Option.some.inj h; omega

theorem base62Value_base62Char (d : Nat) (hd : d < 62) :
    base62Value (base62Char d) = some d := by
  have hv := base62Char_val d hd
  simp only [base62Value, hv]
  split_ifs <;> simp_all <;> omega

theorem base62Char_base62Value (c : Fin 256) (r : Nat) (h : base62Value c = some r) :
    base62Char r = c := by
  have hr : r < 62 := base62Value_lt c r h
  simp only [base62Value] at h
  apply Fin.ext
  rw [base62Char_val r hr]
  split_ifs at h with h1 h2 h3 <;> simp only [Option.some.injEq] at h <;> split_ifs <;> omega

theorem base62Ranks_map (l : List Nat) (h : ∀ d ∈ l, d < 62) :
    base62Ranks (l.map base62Char) = some l := by
  induction l with
  | nil => rfl
  | cons d t ih =>
    have hd : d < 62 := h d (List.mem_cons_self d t)
    have ht : ∀ x ∈ t, x < 62 := fun x hx => h x (List.mem_cons_of_mem d hx)
    simp only [List.map_cons, base62Ranks, base62Value_base62Char d hd, ih ht]

theorem base62Ranks_spec (s : List (Fin 256)) (rs : List Nat)
    (h : base62Ranks s = some rs) :
    rs.map base62Char = s ∧ rs.length = s.length ∧ ∀ r ∈ rs, r < 62 := by
  induction s generalizing rs with
  | nil =>
    simp only [base62Ranks, Option.some.injEq] at h
    subst h
    simp
  | cons c t ih =>
    simp only [base62Ranks] at h
    rcases hv : base62Value c with _ | r <;> rw [hv] at h
    · exact absurd h (by simp)
    · rcases hrest : base62Ranks t with _ | rt <;> rw [hrest] at h
      · exact absurd h (by simp)
      · simp only [Option.some.injEq] at h
        subst h
        obtain ⟨hm, hl, hb⟩ := ih rt hrest
        refine ⟨?_, by simp [hl], ?_⟩
        · simp [hm, base62Char_base62Value c r hv]
        · intro x hx
          rcases List.mem_cons.1 hx with rfl | hx
          · exact base62Value_lt c x hv
          · exact hb x hx

/-! ## Order preservation (claim C1) -/

/-- Byte-wise three-way comparison of Go strings, as an `int` — what
`strcmp` computes on them. -/
def stringCompare (s1 s2 : List (Fin 256)) : Int :=
  ordToInt (lexCompare (s1.map Fin.val) (s2.map Fin.val))

theorem pow_le_pow_62_27 : 256 ^ byteLength ≤ 62 ^ stringEncodedLength := by
  norm_num [byteLength, timestampLengthInBytes, payloadLengthInBytes, stringEncodedLength]

theorem map_val_string (k : KSUID) :
    (KSUID.String k).map Fin.val =
      (natToDigits 62 stringEncodedLength (bytesToNat k.val)).map
        (fun d => (base62Char d).val) := by
  simp [KSUID.String, KSUID.Append, fastAppendEncodeBase62, List.map_map, Function.comp_def]

/-- C1: for every pair of identifiers `a`, `b`, `Compare a b` (byte-wise
comparison of the 20-byte forms) equals the byte-wise string comparison of
`a.String()` and `b.String()` — the 27-character base62 encoding is strictly
monotone with respect to the 20-byte big-endian value order, so in
particular the two comparisons are sign-equal. -/
theorem compare_eq_stringCompare (a b : KSUID) :
    Compare a b = stringCompare (KSUID.String a) (KSUID.String b) := by
  have hva : bytesToNat a.val < 256 ^ byteLength := by
    have := bytesToNat_lt a.val
    rwa [a.property] at this
  have hvb : bytesToNat b.val < 256 ^ byteLength := by
    have := bytesToNat_lt b.val
    rwa [b.property] at this
  have hbytes : lexCompare (a.val.map Fin.val) (b.val.map Fin.val) =
      compare (bytesToNat a.val) (bytesToNat b.val) := by
    apply lexCompare_eq_compare 256
    · simp [a.property, b.property]
    · simp [Fin.isLt]
    · simp [Fin.isLt]
  have hstr : lexCompare ((KSUID.String a).map Fin.val) ((KSUID.String b).map Fin.val) =
      compare (bytesToNat a.val) (bytesToNat b.val) := by
    rw [map_val_string, map_val_string]
    rw [lexCompare_map_mono 62 (fun d => (base62Char d).val) _ _
      (fun x y hx hy => base62Char_strictMono x y hx hy)
      (natToDigits_lt 62 _ _ (by norm_num)) (natToDigits_lt 62 _ _ (by norm_num))]
    rw [lexCompare_eq_compare 62 _ _ (by simp [length_natToDigits])
      (natToDigits_lt 62 _ _ (by norm_num)) (natToDigits_lt 62 _ _ (by norm_num))]
    rw [digitsToNat_natToDigits, digitsToNat_natToDigits]
    rw [Nat.mod_eq_of_lt (lt_of_lt_of_le hva pow_le_pow_62_27),
      Nat.mod_eq_of_lt (lt_of_lt_of_le hvb pow_le_pow_62_27)]
  rw [Compare, stringCompare, hbytes, hstr]

/-! ## Round-trips (claim C2) -/

theorem length_string (k : KSUID) : (KSUID.String k).length = stringEncodedLength := by
  simp [KSUID.String, KSUID.Append, fastAppendEncodeBase62, length_natToDigits]

theorem bytesToNat_ksuid_lt (k : KSUID) : bytesToNat k.val < 256 ^ byteLength := by
  have := bytesToNat_lt k.val
  rwa [k.property] at this

theorem fastDecodeBase62_string (k : KSUID) :
    fastDecodeBase62 (KSUID.String k) = some k.val := by
  have hva := bytesToNat_ksuid_lt k
  have hranks : base62Ranks (KSUID.String k) =
      some (natToDigits 62 stringEncodedLength (bytesToNat k.val)) := by
    rw [KSUID.String, KSUID.Append, fastAppendEncodeBase62, List.nil_append]
    exact base62Ranks_map _ (natToDigits_lt 62 _ _ (by norm_num))
  rw [fastDecodeBase62, hranks, Option.some_bind]
  rw [digitsToNat_natToDigits]
  have hlt : bytesToNat k.val < 62 ^ stringEncodedLength := lt_of_lt_of_le hva pow_le_pow_62_27
  rw [Nat.mod_eq_of_lt hlt, if_pos hva]
  refine congrArg some ?_
  have h := natToBytes_bytesToNat k.val
  rw [k.property] at h
  exact h

theorem parse_string (k : KSUID) : Parse (KSUID.String k) = (k, none) := by
  rw [Parse, if_neg (by simp [length_string]), fastDecodeBase62_string]
  show FromBytes k.val = (k, none)
  rw [FromBytes, dif_neg (by simp [k.property])]
  rfl

theorem string_parse (s : List (Fin 256)) (h : (Parse s).2 = none) :
    KSUID.String (Parse s).1 = s := by
  by_cases hlen : s.length ≠ stringEncodedLength
  · rw [Parse, if_pos hlen] at h
    exact absurd h (by simp)
  · rw [Parse, if_neg hlen] at h ⊢
    cases hdec : fastDecodeBase62 s with
    | none =>
      rw [hdec] at h
      exact Option.noConfusion h
    | some dst =>
      rw [fastDecodeBase62] at hdec
      cases hr : base62Ranks s with
      | none =>
        rw [hr] at hdec
        exact absurd hdec (by simp)
      | some rs =>
        rw [hr, Option.some_bind] at hdec
        split_ifs at hdec with hv
        · have hdst := Option.some.inj hdec
          obtain ⟨hmap, hlenr, hbd⟩ := base62Ranks_spec s rs hr
          have hs27 : s.length = stringEncodedLength := of_not_not hlen
          have hgoal : (FromBytes dst).1.String = s := by
            rw [FromBytes, dif_neg (by simp [← hdst, length_natToBytes])]
            show KSUID.String ⟨dst, _⟩ = s
            rw [KSUID.String, KSUID.Append, fastAppendEncodeBase62, List.nil_append]
            simp only [← hdst]
            rw [bytesToNat_natToBytes, Nat.mod_eq_of_lt hv]
            have h27 : stringEncodedLength = rs.length := by rw [hlenr, hs27]
            rw [h27, natToDigits_digitsToNat 62 rs hbd, hmap]
          exact hgoal

/-- C2: serialization round-trips exactly — `FromBytes` succeeds on any
20-byte input and returns it unchanged through `Bytes()`; `Parse` inverts
`String()` for every identifier; and `String()` inverts `Parse` on every
string that `Parse` accepts. -/
theorem roundtrip_serialization (b : List (Fin 256)) (x : KSUID) (s : List (Fin 256))
    (hb : b.length = byteLength) (hs : (Parse s).2 = none) :
    (FromBytes b).2 = none ∧ (FromBytes b).1.Bytes = b ∧
      Parse (KSUID.String x) = (x, none) ∧ KSUID.String (Parse s).1 = s := by
  refine ⟨?_, ?_, parse_string x, string_parse s hs⟩ <;>
    rw [FromBytes, dif_neg (by simp [hb])] <;> rfl

/-- Concrete instance of C2 at a 20-byte input, the `Nil` identifier, and the
all-zero 27-character string. -/
theorem roundtrip_serialization_witness :
    (FromBytes (List.replicate 20 0)).2 = none ∧
      (FromBytes (List.replicate 20 0)).1.Bytes = List.replicate 20 0 ∧
      Parse (KSUID.String KSUID.Nil) = (KSUID.Nil, none) ∧
      KSUID.String (Parse (List.replicate 27 48)).1 = List.replicate 27 48 :=
  roundtrip_serialization (List.replicate 20 0) KSUID.Nil (List.replicate 27 48)
    (by decide) (by decide)

/-! ## Boundary values of the codec (claim C5) -/

/-- Go `minStringEncoded = "000000000000000000000000000"`, as ASCII bytes. -/
def minStringEncoded : List (Fin 256) := List.replicate stringEncodedLength 48

/-- Go `maxStringEncoded = "aWgEPTl1tmebfsQzFP4bxwgy80V"`, as ASCII bytes. -/
def maxStringEncoded : List (Fin 256) :=
  [97, 87, 103, 69, 80, 84, 108, 49, 116, 109, 101, 98, 102, 115, 81, 122,
   70, 80, 52, 98, 120, 119, 103, 121, 56, 48, 86]

/-- The 27-character base62 string one unit above `maxStringEncoded`
(its final digit `V` bumped to `W`). -/
def oneAboveMaxEncoded : List (Fin 256) :=
  [97, 87, 103, 69, 80, 84, 108, 49, 116, 109, 101, 98, 102, 115, 81, 122,
   70, 80, 52, 98, 120, 119, 103, 121, 56, 48, 87]

/-- C5: encoding the all-zero identifier yields the all-`'0'` string,
encoding the all-0xFF identifier yields `"aWgEPTl1tmebfsQzFP4bxwgy80V"`, and
decoding the 27-character string whose base62 value is one unit above
`Max`'s (that value is exactly `2^160`) fails with `InvalidStringValue`. -/
theorem boundary_codec :
    KSUID.String KSUID.Nil = minStringEncoded ∧
      KSUID.String KSUID.Max = maxStringEncoded ∧
      digitsToNat 62 ((base62Ranks oneAboveMaxEncoded).getD []) = 256 ^ byteLength ∧
      Parse oneAboveMaxEncoded = (KSUID.Nil, some KsuidError.invalidStringValue) := by
  refine ⟨by decide, by decide, by decide, by decide⟩

/-! ## Length validation (claim C6) -/

/-- C6: `FromBytes` fails with `InvalidSize` exactly on inputs whose length
is not 20, `Parse` fails with `InvalidStringSize` exactly on strings whose
length is not 27, and in each case the failing result is the `Nil`
sentinel paired with that error. -/
theorem length_validation (b s : List (Fin 256)) :
    ((FromBytes b).2 = some KsuidError.invalidSize ↔ b.length ≠ byteLength) ∧
      ((Parse s).2 = some KsuidError.invalidStringSize ↔ s.length ≠ stringEncodedLength) ∧
      (b.length ≠ byteLength → FromBytes b = (KSUID.Nil, some KsuidError.invalidSize)) ∧
      (s.length ≠ stringEncodedLength →
        Parse s = (KSUID.Nil, some KsuidError.invalidStringSize)) := by
  have hfb : b.length ≠ byteLength → FromBytes b = (KSUID.Nil, some KsuidError.invalidSize) :=
    fun hb => by rw [FromBytes, dif_pos hb]
  have hps : s.length ≠ stringEncodedLength →
      Parse s = (KSUID.Nil, some KsuidError.invalidStringSize) :=
    fun hs => by rw [Parse, if_pos hs]
  refine ⟨⟨fun h => ?_, fun h => by rw [hfb h]⟩, ⟨fun h => ?_, fun h => by rw [hps h]⟩, hfb, hps⟩
  · by_contra hb
    rw [FromBytes, dif_neg (not_not_intro hb)] at h
    exact Option.noConfusion h
  · by_contra hs
    rw [Parse, if_neg (not_not_intro hs)] at h
    cases hdec : fastDecodeBase62 s with
    | none =>
      rw [hdec] at h
      have h2 : KsuidError.invalidStringValue = KsuidError.invalidStringSize :=
        Option.some.inj h
      exact KsuidError.noConfusion h2
    | some dst =>
      rw [hdec] at h
      replace h : (FromBytes dst).2 = some KsuidError.invalidStringSize := h
      rw [fastDecodeBase62] at hdec
      cases hr : base62Ranks s with
      | none => rw [hr] at hdec; exact Option.noConfusion hdec
      | some rs =>
        rw [hr, Option.some_bind] at hdec
        split_ifs at hdec with hv
        have hdst := Option.some.inj hdec
        rw [FromBytes, dif_neg (by simp [← hdst, length_natToBytes])] at h
        exact Option.noConfusion h

/-- Concrete instance of C6 at a 19-byte input and a 26-character string. -/
theorem length_validation_witness :
    FromBytes (List.replicate 19 0) = (KSUID.Nil, some KsuidError.invalidSize) ∧
      Parse (List.replicate 26 48) = (KSUID.Nil, some KsuidError.invalidStringSize) :=
  ⟨(length_validation (List.replicate 19 0) (List.replicate 26 48)).2.2.1 (by decide),
   (length_validation (List.replicate 19 0) (List.replicate 26 48)).2.2.2 (by decide)⟩

/-! ## Failure atomicity and the OrNil wrappers (claim C7) -/

theorem parse_error_nil (s : List (Fin 256)) (h : (Parse s).2.isSome) :
    (Parse s).1 = KSUID.Nil := by
  by_cases hlen : s.length ≠ stringEncodedLength
  · rw [Parse, if_pos hlen]
  · rw [Parse, if_neg hlen] at h ⊢
    cases hdec : fastDecodeBase62 s with
    | none => rfl
    | some dst =>
      rw [hdec] at h
      replace h : (FromBytes dst).2.isSome := h
      show (FromBytes dst).1 = KSUID.Nil
      by_cases hb : dst.length ≠ byteLength
      · rw [FromBytes, dif_pos hb]
      · rw [FromBytes, dif_neg hb] at h
        exact absurd h (by simp)

/-- C7: whenever a fallible constructor reports an error its value half is
the `Nil` sentinel, and — unconditionally — each `OrNil` variant equals
`Nil` exactly when the fallible form errors and the fallible form's
successful result otherwise. -/
theorem failure_atomicity (t : Int) (p b s : List (Fin 256))
    (rb : Option { l : List (Fin 256) // l.length = payloadLengthInBytes }) :
    ((FromParts t p).2.isSome → (FromParts t p).1 = KSUID.Nil) ∧
      ((FromBytes b).2.isSome → (FromBytes b).1 = KSUID.Nil) ∧
      ((Parse s).2.isSome → (Parse s).1 = KSUID.Nil) ∧
      ((NewRandomWithTime t rb).2.isSome → (NewRandomWithTime t rb).1 = KSUID.Nil) ∧
      FromPartsOrNil t p = (if (FromParts t p).2.isSome then KSUID.Nil else (FromParts t p).1) ∧
      FromBytesOrNil b = (if (FromBytes b).2.isSome then KSUID.Nil else (FromBytes b).1) ∧
      ParseOrNil s = (if (Parse s).2.isSome then KSUID.Nil else (Parse s).1) := by
  have h1 : (FromParts t p).2.isSome → (FromParts t p).1 = KSUID.Nil := by
    intro hp
    by_cases hc : p.length ≠ payloadLengthInBytes
    · rw [FromParts, dif_pos hc]
    · rw [FromParts, dif_neg hc] at hp
      exact absurd hp (by simp)
  have h2 : (FromBytes b).2.isSome → (FromBytes b).1 = KSUID.Nil := by
    intro hb
    by_cases hc : b.length ≠ byteLength
    · rw [FromBytes, dif_pos hc]
    · rw [FromBytes, dif_neg hc] at hb
      exact absurd hb (by simp)
  have h4 : (NewRandomWithTime t rb).2.isSome → (NewRandomWithTime t rb).1 = KSUID.Nil := by
    intro hr
    cases rb with
    | none => rfl
    | some buf => exact absurd hr (by simp [NewRandomWithTime])
  have h5 : FromPartsOrNil t p =
      (if (FromParts t p).2.isSome then KSUID.Nil else (FromParts t p).1) := by
    rcases hfp : FromParts t p with ⟨id, _ | e⟩ <;> simp [FromPartsOrNil, hfp]
  have h6 : FromBytesOrNil b =
      (if (FromBytes b).2.isSome then KSUID.Nil else (FromBytes b).1) := by
    rcases hfb : FromBytes b with ⟨id, _ | e⟩ <;> simp [FromBytesOrNil, hfb]
  have h7 : ParseOrNil s = (if (Parse s).2.isSome then KSUID.Nil else (Parse s).1) := by
    rcases hpp : Parse s with ⟨id, _ | e⟩ <;> simp [ParseOrNil, hpp]
  exact ⟨h1, h2, parse_error_nil s, h4, h5, h6, h7⟩

/-- Concrete instances of C7: on failing inputs (empty payload, empty byte
slice, empty string, failed entropy read) each constructor's value half is
`Nil` and each `OrNil` wrapper returns `Nil`; on a succeeding 20-byte input
`FromBytesOrNil` returns `FromBytes`'s successful result. -/
theorem failure_atomicity_witness :
    (FromParts 0 []).1 = KSUID.Nil ∧ (FromBytes []).1 = KSUID.Nil ∧
      (Parse []).1 = KSUID.Nil ∧ (NewRandomWithTime 0 none).1 = KSUID.Nil ∧
      FromPartsOrNil 0 [] =
        (if (FromParts 0 []).2.isSome then KSUID.Nil else (FromParts 0 []).1) ∧
      ParseOrNil [] = (if (Parse []).2.isSome then KSUID.Nil else (Parse []).1) ∧
      FromBytesOrNil (List.replicate 20 0) =
        (if (FromBytes (List.replicate 20 0)).2.isSome then KSUID.Nil
         else (FromBytes (List.replicate 20 0)).1) :=
  ⟨(failure_atomicity 0 [] [] [] none).1 (by decide),
   (failure_atomicity 0 [] [] [] none).2.1 (by decide),
   (failure_atomicity 0 [] [] [] none).2.2.1 (by decide),
   (failure_atomicity 0 [] [] [] none).2.2.2.1 (by decide),
   (failure_atomicity 0 [] [] [] none).2.2.2.2.1,
   (failure_atomicity 0 [] [] [] none).2.2.2.2.2.2,
   (failure_atomicity 0 [] (List.replicate 20 0) [] none).2.2.2.2.2.1⟩

/-! ## 128-bit unsigned integers (modelled from the spec; `uint128.go` is not
among the sources at hand, only its callers are) -/

/-- Modelled from the spec: an unsigned 128-bit integer as two 64-bit halves
(each half a value below `2^64`). -/
structure Uint128 where
  hi : Nat
  lo : Nat
deriving DecidableEq

/-- Modelled from the spec: construction from two 64-bit halves. -/
def makeUint128 (hi lo : Nat) : Uint128 := ⟨hi, lo⟩

/-- Modelled from the spec: addition wrapping modulo `2^128`, with the carry
between the 64-bit halves made explicit. -/
def add128 (a b : Uint128) : Uint128 :=
  ⟨(a.hi + b.hi + (a.lo + b.lo) / 2 ^ 64) % 2 ^ 64, (a.lo + b.lo) % 2 ^ 64⟩

/-- Modelled from the spec: subtraction wrapping modulo `2^128`, with the
borrow between the 64-bit halves made explicit. -/
def sub128 (a b : Uint128) : Uint128 :=
  ⟨(a.hi + 2 ^ 64 - b.hi - (if a.lo < b.lo then 1 else 0)) % 2 ^ 64,
   (a.lo + 2 ^ 64 - b.lo) % 2 ^ 64⟩

/-- Modelled from the spec: `uint128Payload` — the payload region read as a
128-bit integer, big-endian. -/
def uint128Payload (k : KSUID) : Uint128 :=
  ⟨bytesToNat ((k.val.drop timestampLengthInBytes).take 8), bytesToNat (k.val.drop 12)⟩

/-- Modelled from the spec: `uint128.ksuid(t)` — rebuild a KSUID from a
timestamp and a 128-bit payload, all big-endian. -/
def Uint128.ksuid (v : Uint128) (t : Nat) : KSUID :=
  ⟨natToBytes timestampLengthInBytes t ++ (natToBytes 8 v.hi ++ natToBytes 8 v.lo), by
    simp [length_natToBytes, byteLength, timestampLengthInBytes, payloadLengthInBytes]⟩

/-- Go `Next()`: payload + 1 with 128-bit wrap; on wrap to zero the uint32
timestamp is incremented (wrapping). -/
def KSUID.Next (k : KSUID) : KSUID :=
  let t := k.Timestamp
  let v := add128 (uint128Payload k) (makeUint128 0 1)
  let t2 := if v = makeUint128 0 0 then (t + 1) % 2 ^ 32 else t
  v.ksuid t2

/-- Go `Prev()`: payload − 1 with 128-bit wrap; on wrap to all-ones the uint32
timestamp is decremented (wrapping). -/
def KSUID.Prev (k : KSUID) : KSUID :=
  let t := k.Timestamp
  let v := sub128 (uint128Payload k) (makeUint128 0 1)
  let t2 := if v = makeUint128 (2 ^ 64 - 1) (2 ^ 64 - 1) then (t + 2 ^ 32 - 1) % 2 ^ 32 else t
  v.ksuid t2

/-! ## The 160-bit value view of a KSUID -/

/-- The big-endian 160-bit value of a KSUID. -/
def ksuidVal (k : KSUID) : Nat := bytesToNat k.val

/-- The KSUID whose big-endian value is `n % 2^160`. -/
def ksuidOfVal (n : Nat) : KSUID := ⟨natToBytes byteLength n, length_natToBytes _ _⟩

theorem ksuidOfVal_val (n : Nat) : (ksuidOfVal n).val = natToBytes byteLength n := by
  rw [ksuidOfVal]

theorem ksuidOfVal_ksuidVal (k : KSUID) : ksuidOfVal (ksuidVal k) = k := by
  apply Subtype.ext
  rw [ksuidOfVal_val, ksuidVal]
  have h := natToBytes_bytesToNat k.val
  rw [k.property] at h
  exact h

theorem ksuidVal_lt (k : KSUID) : ksuidVal k < 2 ^ 160 := by
  have h := bytesToNat_ksuid_lt k
  have : (256 : Nat) ^ byteLength = 2 ^ 160 := by
    norm_num [byteLength, timestampLengthInBytes, payloadLengthInBytes]
  rwa [this] at h

theorem ksuidVal_ksuidOfVal (n : Nat) (h : n < 2 ^ 160) : ksuidVal (ksuidOfVal n) = n := by
  rw [ksuidVal, ksuidOfVal_val, bytesToNat_natToBytes]
  have : (256 : Nat) ^ byteLength = 2 ^ 160 := by
    norm_num [byteLength, timestampLengthInBytes, payloadLengthInBytes]
  rw [this]
  exact Nat.mod_eq_of_lt h

theorem ksuidVal_injective (a b : KSUID) (h : ksuidVal a = ksuidVal b) : a = b := by
  have := congrArg ksuidOfVal h
  rwa [ksuidOfVal_ksuidVal, ksuidOfVal_ksuidVal] at this

/-- The three big-endian chunks any 20-byte value splits into. -/
theorem natToBytes_split (t hi lo : Nat) (ht : t < 2 ^ 32) (hh : hi < 2 ^ 64)
    (hl : lo < 2 ^ 64) :
    natToBytes byteLength (t * 2 ^ 128 + hi * 2 ^ 64 + lo) =
      natToBytes 4 t ++ (natToBytes 8 hi ++ natToBytes 8 lo) := by
  have hlen : (natToBytes 4 t ++ (natToBytes 8 hi ++ natToBytes 8 lo)).length = byteLength := by
    simp [length_natToBytes, byteLength, timestampLengthInBytes, payloadLengthInBytes]
  have hval : bytesToNat (natToBytes 4 t ++ (natToBytes 8 hi ++ natToBytes 8 lo)) =
      t * 2 ^ 128 + hi * 2 ^ 64 + lo := by
    rw [bytesToNat_append, bytesToNat_append]
    rw [bytesToNat_natToBytes, bytesToNat_natToBytes, bytesToNat_natToBytes]
    rw [Nat.mod_eq_of_lt (lt_of_lt_of_eq ht (by norm_num))]
    rw [Nat.mod_eq_of_lt (lt_of_lt_of_eq hh (by norm_num))]
    rw [Nat.mod_eq_of_lt (lt_of_lt_of_eq hl (by norm_num))]
    simp [List.length_append, length_natToBytes]
    ring
  have h := natToBytes_bytesToNat (natToBytes 4 t ++ (natToBytes 8 hi ++ natToBytes 8 lo))
  rw [hlen, hval] at h
  exact h

theorem bytesToNat_three (t hi lo : Nat) (ht : t < 2 ^ 32) (hh : hi < 2 ^ 64)
    (hl : lo < 2 ^ 64) :
    bytesToNat (natToBytes 4 t ++ (natToBytes 8 hi ++ natToBytes 8 lo)) =
      t * 2 ^ 128 + hi * 2 ^ 64 + lo := by
  rw [bytesToNat_append, bytesToNat_append]
  rw [bytesToNat_natToBytes, bytesToNat_natToBytes, bytesToNat_natToBytes]
  rw [Nat.mod_eq_of_lt (lt_of_lt_of_eq ht (by norm_num))]
  rw [Nat.mod_eq_of_lt (lt_of_lt_of_eq hh (by norm_num))]
  rw [Nat.mod_eq_of_lt (lt_of_lt_of_eq hl (by norm_num))]
  simp [List.length_append, length_natToBytes]
  ring

theorem uksuid_val (v : Uint128) (t : Nat) :
    (Uint128.ksuid v t).val = natToBytes 4 t ++ (natToBytes 8 v.hi ++ natToBytes 8 v.lo) := by
  rw [Uint128.ksuid]
  show natToBytes timestampLengthInBytes t ++ (natToBytes 8 v.hi ++ natToBytes 8 v.lo) =
    natToBytes 4 t ++ (natToBytes 8 v.hi ++ natToBytes 8 v.lo)
  norm_num [timestampLengthInBytes]

theorem ksuid_ofVal_eq_uksuid (t hi lo : Nat) (ht : t < 2 ^ 32)
    (hh : hi < 2 ^ 64) (hl : lo < 2 ^ 64) :
    ksuidOfVal (t * 2 ^ 128 + hi * 2 ^ 64 + lo) = Uint128.ksuid ⟨hi, lo⟩ t := by
  apply Subtype.ext
  rw [ksuidOfVal_val, uksuid_val, natToBytes_split _ _ _ ht hh hl]

/-- The 20 bytes of a KSUID split as timestamp, high payload half, low
payload half, with the matching value decomposition and bounds. -/
theorem ksuid_decomp (k : KSUID) :
    k.Timestamp < 2 ^ 32 ∧ (uint128Payload k).hi < 2 ^ 64 ∧ (uint128Payload k).lo < 2 ^ 64 ∧
      ksuidVal k =
        k.Timestamp * 2 ^ 128 + (uint128Payload k).hi * 2 ^ 64 + (uint128Payload k).lo := by
  have h20 : k.val.length = 20 := by
    have := k.property
    simpa [byteLength, timestampLengthInBytes, payloadLengthInBytes] using this
  have hA : (k.val.take 4).length = 4 := by simp [List.length_take, h20]
  have hB : ((k.val.drop 4).take 8).length = 8 := by simp [List.length_take, List.length_drop, h20]
  have hC : (k.val.drop 12).length = 8 := by simp [List.length_drop, h20]
  have hsplit : k.val = k.val.take 4 ++ ((k.val.drop 4).take 8 ++ k.val.drop 12) := by
    have h1 : k.val.take 4 ++ k.val.drop 4 = k.val := List.take_append_drop 4 k.val
    have h2 : (k.val.drop 4).take 8 ++ (k.val.drop 4).drop 8 = k.val.drop 4 :=
      List.take_append_drop 8 (k.val.drop 4)
    have h3 : (k.val.drop 4).drop 8 = k.val.drop 12 := by
      rw [List.drop_drop]
    conv_lhs => rw [← h1]
    rw [← h3, h2]
  have hts : k.Timestamp = bytesToNat (k.val.take 4) := by
    rw [KSUID.Timestamp, timestampLengthInBytes]
  have hhi : (uint128Payload k).hi = bytesToNat ((k.val.drop 4).take 8) := by
    rw [uint128Payload, timestampLengthInBytes]
  have hlo : (uint128Payload k).lo = bytesToNat (k.val.drop 12) := by
    rw [uint128Payload]
  have htlt : bytesToNat (k.val.take 4) < 2 ^ 32 := by
    have := bytesToNat_lt (k.val.take 4)
    rw [hA] at this
    exact lt_of_lt_of_eq this (by norm_num)
  have hhlt : bytesToNat ((k.val.drop 4).take 8) < 2 ^ 64 := by
    have := bytesToNat_lt ((k.val.drop 4).take 8)
    rw [hB] at this
    exact lt_of_lt_of_eq this (by norm_num)
  have hllt : bytesToNat (k.val.drop 12) < 2 ^ 64 := by
    have := bytesToNat_lt (k.val.drop 12)
    rw [hC] at this
    exact lt_of_lt_of_eq this (by norm_num)
  refine ⟨hts ▸ htlt, hhi ▸ hhlt, hlo ▸ hllt, ?_⟩
  rw [ksuidVal, hts, hhi, hlo]
  conv_lhs => rw [hsplit]
  rw [bytesToNat_append, bytesToNat_append]
  rw [List.length_append, hB, hC]
  norm_num
  ring

theorem add128_mk (ah al bh bl : Nat) :
    add128 ⟨ah, al⟩ ⟨bh, bl⟩ =
      ⟨(ah + bh + (al + bl) / 2 ^ 64) % 2 ^ 64, (al + bl) % 2 ^ 64⟩ := rfl

theorem sub128_mk (ah al bh bl : Nat) :
    sub128 ⟨ah, al⟩ ⟨bh, bl⟩ =
      ⟨(ah + 2 ^ 64 - bh - (if al < bl then 1 else 0)) % 2 ^ 64,
       (al + 2 ^ 64 - bl) % 2 ^ 64⟩ := rfl

/-- Go `Next` is "+1 modulo 2^160" on the 160-bit value. -/
theorem next_eq_ofVal (k : KSUID) :
    KSUID.Next k = ksuidOfVal ((ksuidVal k + 1) % 2 ^ 160) := by
  obtain ⟨htv, hhv, hlv, hval⟩ := ksuid_decomp k
  set tv := k.Timestamp with htv_def
  set hv := (uint128Payload k).hi with hhv_def
  set lv := (uint128Payload k).lo with hlv_def
  have hA : uint128Payload k = ⟨hv, lv⟩ := rfl
  have hadd : add128 (uint128Payload k) (makeUint128 0 1) =
      ⟨(hv + 0 + (lv + 1) / 2 ^ 64) % 2 ^ 64, (lv + 1) % 2 ^ 64⟩ := by
    rw [hA, makeUint128, add128_mk]
  simp only [KSUID.Next]
  rw [← htv_def, hadd]
  by_cases h1 : lv + 1 < 2 ^ 64
  · have hvv : (⟨(hv + 0 + (lv + 1) / 2 ^ 64) % 2 ^ 64, (lv + 1) % 2 ^ 64⟩ : Uint128) =
        ⟨hv, lv + 1⟩ := by
      congr 1 <;> omega
    have hne : (⟨hv, lv + 1⟩ : Uint128) ≠ makeUint128 0 0 := by
      rw [makeUint128]
      intro hc
      rw [Uint128.mk.injEq] at hc
      omega
    rw [hvv, if_neg hne]
    rw [(show (ksuidVal k + 1) % 2 ^ 160 = tv * 2 ^ 128 + hv * 2 ^ 64 + (lv + 1) by omega)]
    rw [ksuid_ofVal_eq_uksuid tv hv (lv + 1) htv hhv h1]
  · by_cases h2 : hv + 1 < 2 ^ 64
    · have hvv : (⟨(hv + 0 + (lv + 1) / 2 ^ 64) % 2 ^ 64, (lv + 1) % 2 ^ 64⟩ : Uint128) =
          ⟨hv + 1, 0⟩ := by
        congr 1 <;> omega
      have hne : (⟨hv + 1, 0⟩ : Uint128) ≠ makeUint128 0 0 := by
        rw [makeUint128]
        intro hc
        rw [Uint128.mk.injEq] at hc
        omega
      rw [hvv, if_neg hne]
      rw [(show (ksuidVal k + 1) % 2 ^ 160 = tv * 2 ^ 128 + (hv + 1) * 2 ^ 64 + 0 by omega)]
      rw [ksuid_ofVal_eq_uksuid tv (hv + 1) 0 htv h2 (by omega)]
    · have hvv : (⟨(hv + 0 + (lv + 1) / 2 ^ 64) % 2 ^ 64, (lv + 1) % 2 ^ 64⟩ : Uint128) =
          ⟨0, 0⟩ := by
        congr 1 <;> omega
      rw [hvv, makeUint128, if_pos rfl]
      rw [(show (ksuidVal k + 1) % 2 ^ 160 =
        ((tv + 1) % 2 ^ 32) * 2 ^ 128 + 0 * 2 ^ 64 + 0 by omega)]
      rw [ksuid_ofVal_eq_uksuid ((tv + 1) % 2 ^ 32) 0 0 (by omega) (by omega) (by omega)]

/-- Go `Prev` is "−1 modulo 2^160" on the 160-bit value. -/
theorem prev_eq_ofVal (k : KSUID) :
    KSUID.Prev k = ksuidOfVal ((ksuidVal k + (2 ^ 160 - 1)) % 2 ^ 160) := by
  obtain ⟨htv, hhv, hlv, hval⟩ := ksuid_decomp k
  set tv := k.Timestamp with htv_def
  set hv := (uint128Payload k).hi with hhv_def
  set lv := (uint128Payload k).lo with hlv_def
  have hA : uint128Payload k = ⟨hv, lv⟩ := rfl
  have hsub : sub128 (uint128Payload k) (makeUint128 0 1) =
      ⟨(hv + 2 ^ 64 - 0 - (if lv < 1 then 1 else 0)) % 2 ^ 64, (lv + 2 ^ 64 - 1) % 2 ^ 64⟩ := by
    rw [hA, makeUint128, sub128_mk]
  simp only [KSUID.Prev]
  rw [← htv_def, hsub]
  by_cases h1 : 0 < lv
  · have hvv : (⟨(hv + 2 ^ 64 - 0 - (if lv < 1 then 1 else 0)) % 2 ^ 64,
        (lv + 2 ^ 64 - 1) % 2 ^ 64⟩ : Uint128) = ⟨hv, lv - 1⟩ := by
      rw [Uint128.mk.injEq]
      constructor
      · rw [if_neg (show ¬lv < 1 by omega)]
        omega
      · omega
    have hne : (⟨hv, lv - 1⟩ : Uint128) ≠ makeUint128 (2 ^ 64 - 1) (2 ^ 64 - 1) := by
      rw [makeUint128]
      intro hc
      rw [Uint128.mk.injEq] at hc
      omega
    rw [hvv, if_neg hne]
    rw [(show (ksuidVal k + (2 ^ 160 - 1)) % 2 ^ 160 =
      tv * 2 ^ 128 + hv * 2 ^ 64 + (lv - 1) by omega)]
    rw [ksuid_ofVal_eq_uksuid tv hv (lv - 1) htv hhv (by omega)]
  · by_cases h2 : 0 < hv
    · have hvv : (⟨(hv + 2 ^ 64 - 0 - (if lv < 1 then 1 else 0)) % 2 ^ 64,
          (lv + 2 ^ 64 - 1) % 2 ^ 64⟩ : Uint128) = ⟨hv - 1, 2 ^ 64 - 1⟩ := by
        rw [Uint128.mk.injEq]
        constructor
        · rw [if_pos (show lv < 1 by omega)]
          omega
        · omega
      have hne : (⟨hv - 1, 2 ^ 64 - 1⟩ : Uint128) ≠ makeUint128 (2 ^ 64 - 1) (2 ^ 64 - 1) := by
        rw [makeUint128]
        intro hc
        rw [Uint128.mk.injEq] at hc
        omega
      rw [hvv, if_neg hne]
      rw [(show (ksuidVal k + (2 ^ 160 - 1)) % 2 ^ 160 =
        tv * 2 ^ 128 + (hv - 1) * 2 ^ 64 + (2 ^ 64 - 1) by omega)]
      rw [ksuid_ofVal_eq_uksuid tv (hv - 1) (2 ^ 64 - 1) htv (by omega) (by omega)]
    · have hvv : (⟨(hv + 2 ^ 64 - 0 - (if lv < 1 then 1 else 0)) % 2 ^ 64,
          (lv + 2 ^ 64 - 1) % 2 ^ 64⟩ : Uint128) = ⟨2 ^ 64 - 1, 2 ^ 64 - 1⟩ := by
        rw [Uint128.mk.injEq]
        constructor
        · rw [if_pos (show lv < 1 by omega)]
          omega
        · omega
      rw [hvv, makeUint128, if_pos rfl]
      rw [(show (ksuidVal k + (2 ^ 160 - 1)) % 2 ^ 160 =
        ((tv + 2 ^ 32 - 1) % 2 ^ 32) * 2 ^ 128 + (2 ^ 64 - 1) * 2 ^ 64 + (2 ^ 64 - 1) by omega)]
      rw [ksuid_ofVal_eq_uksuid ((tv + 2 ^ 32 - 1) % 2 ^ 32) (2 ^ 64 - 1) (2 ^ 64 - 1)
        (by omega) (by omega) (by omega)]

theorem next_prev (k : KSUID) : k.Next.Prev = k := by
  have hk := ksuidVal_lt k
  rw [next_eq_ofVal, prev_eq_ofVal]
  rw [ksuidVal_ksuidOfVal _ (Nat.mod_lt _ (by norm_num))]
  rw [(show ((ksuidVal k + 1) % 2 ^ 160 + (2 ^ 160 - 1)) % 2 ^ 160 = ksuidVal k by omega)]
  exact ksuidOfVal_ksuidVal k

theorem prev_next (k : KSUID) : k.Prev.Next = k := by
  have hk := ksuidVal_lt k
  rw [prev_eq_ofVal, next_eq_ofVal]
  rw [ksuidVal_ksuidOfVal _ (Nat.mod_lt _ (by norm_num))]
  rw [(show ((ksuidVal k + (2 ^ 160 - 1)) % 2 ^ 160 + 1) % 2 ^ 160 = ksuidVal k by omega)]
  exact ksuidOfVal_ksuidVal k

theorem payload_val (k : KSUID) :
    bytesToNat k.Payload = (uint128Payload k).hi * 2 ^ 64 + (uint128Payload k).lo := by
  have h20 : k.val.length = 20 := by
    have := k.property
    simpa [byteLength, timestampLengthInBytes, payloadLengthInBytes] using this
  have h2 : (k.val.drop 4).take 8 ++ (k.val.drop 4).drop 8 = k.val.drop 4 :=
    List.take_append_drop 8 (k.val.drop 4)
  have h3 : (k.val.drop 4).drop 8 = k.val.drop 12 := by rw [List.drop_drop]
  have hC : (k.val.drop 12).length = 8 := by simp [List.length_drop, h20]
  have hhi : (uint128Payload k).hi = bytesToNat ((k.val.drop 4).take 8) := by
    rw [uint128Payload, timestampLengthInBytes]
  have hlo : (uint128Payload k).lo = bytesToNat (k.val.drop 12) := by
    rw [uint128Payload]
  rw [KSUID.Payload, timestampLengthInBytes, hhi, hlo]
  conv_lhs => rw [← h2, h3]
  rw [bytesToNat_append, hC]
  norm_num

theorem val_split_payload (k : KSUID) :
    ksuidVal k = k.Timestamp * 2 ^ 128 + bytesToNat k.Payload ∧
      bytesToNat k.Payload < 2 ^ 128 := by
  obtain ⟨ht, hh, hl, hv⟩ := ksuid_decomp k
  rw [payload_val]
  constructor
  · omega
  · omega

theorem map_val_lt (l : List (Fin 256)) : ∀ d ∈ l.map Fin.val, d < 256 := by
  intro d hd
  obtain ⟨x, _, rfl⟩ := List.mem_map.1 hd
  exact x.isLt

theorem compare_val_eq (a b : KSUID) :
    Compare a b = ordToInt (compare (ksuidVal a) (ksuidVal b)) := by
  rw [Compare]
  rw [lexCompare_eq_compare 256 (a.val.map Fin.val) (b.val.map Fin.val)
    (by simp [a.property, b.property]) (map_val_lt a.val) (map_val_lt b.val)]
  rfl

theorem compare_lt_zero_iff (a b : KSUID) : Compare a b < 0 ↔ ksuidVal a < ksuidVal b := by
  rw [compare_val_eq]
  rcases Nat.lt_trichotomy (ksuidVal a) (ksuidVal b) with h | h | h
  · rw [Nat.compare_eq_lt.2 h]
    simp [ordToInt, h]
  · rw [h, Nat.compare_eq_eq.2 rfl]
    simp [ordToInt]
  · rw [Nat.compare_eq_gt.2 h]
    simp [ordToInt]
    omega

theorem compare_le_zero_iff (a b : KSUID) : Compare a b ≤ 0 ↔ ksuidVal a ≤ ksuidVal b := by
  rw [compare_val_eq]
  rcases Nat.lt_trichotomy (ksuidVal a) (ksuidVal b) with h | h | h
  · rw [Nat.compare_eq_lt.2 h]
    simp [ordToInt]
    omega
  · rw [h, Nat.compare_eq_eq.2 rfl]
    simp [ordToInt]
  · rw [Nat.compare_eq_gt.2 h]
    simp [ordToInt]
    omega

theorem ksuidVal_max : ksuidVal KSUID.Max = 2 ^ 160 - 1 := by decide

/-- C3: `Next` adds one to the 128-bit payload modulo `2^128`; the uint32
timestamp gains the carry exactly when the payload wrapped (was all-0xFF);
and for every identifier but `Max` the result is the immediate successor in
the total 20-byte lexicographic order (its 160-bit value is one greater, it
is strictly above `x`, and nothing that is above `x` is strictly below it). -/
theorem next_spec (x : KSUID) :
    bytesToNat x.Next.Payload = (bytesToNat x.Payload + 1) % 2 ^ 128 ∧
      x.Next.Timestamp =
        (if bytesToNat x.Payload = 2 ^ 128 - 1 then (x.Timestamp + 1) % 2 ^ 32
         else x.Timestamp) ∧
      (x ≠ KSUID.Max →
        ksuidVal x.Next = ksuidVal x + 1 ∧
          Compare x x.Next < 0 ∧ ∀ y : KSUID, Compare x y < 0 → Compare x.Next y ≤ 0) := by
  obtain ⟨hsx, hpx⟩ := val_split_payload x
  obtain ⟨hsn, hpn⟩ := val_split_payload x.Next
  have hxlt := ksuidVal_lt x
  have hnext : ksuidVal x.Next = (ksuidVal x + 1) % 2 ^ 160 := by
    rw [next_eq_ofVal]
    exact ksuidVal_ksuidOfVal _ (Nat.mod_lt _ (by norm_num))
  have htx : x.Timestamp < 2 ^ 32 := (ksuid_decomp x).1
  have htn : x.Next.Timestamp < 2 ^ 32 := (ksuid_decomp x.Next).1
  refine ⟨by omega, ?_, ?_⟩
  · split_ifs with hP
    · omega
    · omega
  · intro hne
    have hvne : ksuidVal x ≠ 2 ^ 160 - 1 := by
      intro hc
      apply hne
      apply ksuidVal_injective
      rw [hc, ksuidVal_max]
    have hsucc : ksuidVal x.Next = ksuidVal x + 1 := by omega
    refine ⟨hsucc, ?_, ?_⟩
    · rw [compare_lt_zero_iff]
      omega
    · intro y hy
      rw [compare_lt_zero_iff] at hy
      rw [compare_le_zero_iff]
      omega

/-- Concrete instance of C3 at the `Nil` identifier. -/
theorem next_spec_witness :
    bytesToNat KSUID.Nil.Next.Payload = (bytesToNat KSUID.Nil.Payload + 1) % 2 ^ 128 ∧
      ksuidVal KSUID.Nil.Next = ksuidVal KSUID.Nil + 1 :=
  ⟨(next_spec KSUID.Nil).1, ((next_spec KSUID.Nil).2.2 (by decide)).1⟩

/-- C4: away from the sentinels `Next` and `Prev` are mutually inverse, and
`Nil.Next()` keeps the zero timestamp with payload one. -/
theorem adjacency (x : KSUID) :
    (x ≠ KSUID.Max → x.Next.Prev = x) ∧ (x ≠ KSUID.Nil → x.Prev.Next = x) ∧
      KSUID.Nil.Next.Timestamp = 0 ∧ bytesToNat KSUID.Nil.Next.Payload = 1 :=
  ⟨fun _ => next_prev x, fun _ => prev_next x, by decide, by decide⟩

/-- Concrete instance of C4 at the identifier of value 1, which is neither
`Nil` nor `Max`. -/
theorem adjacency_witness :
    (ksuidOfVal 1).Next.Prev = ksuidOfVal 1 ∧ (ksuidOfVal 1).Prev.Next = ksuidOfVal 1 :=
  ⟨(adjacency (ksuidOfVal 1)).1 (by decide), (adjacency (ksuidOfVal 1)).2.1 (by decide)⟩

/-- C9: `Next` and `Prev` are inverse bijections on the whole 2^160-value
domain: the uint32 timestamp wraps as well, so `Max.Next() = Nil`,
`Nil.Prev() = Max`, and the two round-trips hold for every identifier with
no exclusions. -/
theorem next_prev_total_bijection :
    KSUID.Max.Next = KSUID.Nil ∧ KSUID.Nil.Prev = KSUID.Max ∧
      ∀ x : KSUID, x.Next.Prev = x ∧ x.Prev.Next = x :=
  ⟨by decide, by decide, fun x => ⟨next_prev x, prev_next x⟩⟩

/-! ## Timestamp wrapping (claim C10) -/

theorem timeToCorrectedUTCTimestamp_eq (t : Int) :
    timeToCorrectedUTCTimestamp t = ((t - 1400000000) % 2 ^ 32).toNat := rfl

theorem timeToCorrectedUTCTimestamp_lt (t : Int) :
    timeToCorrectedUTCTimestamp t < 2 ^ 32 := by
  rw [timeToCorrectedUTCTimestamp_eq]
  omega

/-- C10: the corrected timestamp is the Unix seconds minus 1400000000,
truncated to uint32 — so `FromParts` (and `NewRandomWithTime` whenever the
entropy read succeeds) never fails on account of the time: pre-epoch or
post-rollover times silently wrap, as the two concrete pre- and post-epoch
instances show, breaking chronological ordering there. -/
theorem timestamp_wraps (t : Int) (p : List (Fin 256))
    (rb : Option { l : List (Fin 256) // l.length = payloadLengthInBytes })
    (hp : p.length = payloadLengthInBytes) :
    timeToCorrectedUTCTimestamp t = ((t - 1400000000) % 2 ^ 32).toNat ∧
      (FromParts t p).2 = none ∧
      ((NewRandomWithTime t rb).2 = none ↔ rb.isSome) ∧
      (FromParts t p).1.Timestamp = ((t - 1400000000) % 2 ^ 32).toNat ∧
      (1399999999 : Int) < 1400000001 ∧
      (FromParts 1399999999 (List.replicate 16 0)).1.Timestamp = 2 ^ 32 - 1 ∧
      (FromParts 1400000001 (List.replicate 16 0)).1.Timestamp = 1 := by
  have hsnd : (FromParts t p).2 = none := by
    rw [FromParts, dif_neg (not_not_intro hp)]
  have hrnd : (NewRandomWithTime t rb).2 = none ↔ rb.isSome := by
    cases rb with
    | none => simp [NewRandomWithTime]
    | some buf => simp [NewRandomWithTime]
  have hread : (FromParts t p).1.Timestamp = timeToCorrectedUTCTimestamp t := by
    rw [FromParts, dif_neg (not_not_intro hp)]
    show bytesToNat ((natToBytes timestampLengthInBytes (timeToCorrectedUTCTimestamp t) ++
      p).take timestampLengthInBytes) = timeToCorrectedUTCTimestamp t
    rw [List.take_left' (length_natToBytes _ _), bytesToNat_natToBytes]
    have hlt := timeToCorrectedUTCTimestamp_lt t
    rw [timestampLengthInBytes]
    exact Nat.mod_eq_of_lt (lt_of_lt_of_eq hlt (by norm_num))
  refine ⟨rfl, hsnd, hrnd, ?_, by norm_num, by decide, by decide⟩
  rw [hread, timeToCorrectedUTCTimestamp_eq]

/-- Concrete instance of C10 with a 16-byte payload, a pre-epoch time, and a
failed entropy read. -/
theorem timestamp_wraps_witness :
    (FromParts (-1) (List.replicate 16 0)).2 = none ∧
      (FromParts (-1) (List.replicate 16 0)).1.Timestamp =
        (((-1 : Int) - 1400000000) % 2 ^ 32).toNat ∧
      ¬((NewRandomWithTime (-1) none).2 = none) :=
  ⟨(timestamp_wraps (-1) (List.replicate 16 0) none (by decide)).2.1,
   (timestamp_wraps (-1) (List.replicate 16 0) none (by decide)).2.2.2.1,
   fun h => by
     have := ((timestamp_wraps (-1) (List.replicate 16 0) none (by decide)).2.2.1).1 h
     simp at this⟩

/-! ## Sorting (`Sort`, `IsSorted`, `quickSort` from `ksuid.go`) -/

/-- Go's parallel assignment `a[i], a[j] = a[j], a[i]` (indices are `int`). -/
def listSwap (a : List KSUID) (i j : Int) : List KSUID :=
  (a.set i.toNat (a.getD j.toNat KSUID.Nil)).set j.toNat (a.getD i.toNat KSUID.Nil)

/-- The `for j := lo; j < hi; j++` Lomuto partition loop of `quickSort`:
elements below the pivot are swapped down to the growing prefix at `i`. -/
def partitionLoop (a : List KSUID) (pivot : KSUID) (i j hi : Int) :
    List KSUID × Int :=
  if h : j < hi then
    if Compare (a.getD j.toNat KSUID.Nil) pivot < 0 then
      partitionLoop (listSwap a (i + 1) j) pivot (i + 1) (j + 1) hi
    else
      partitionLoop a pivot i (j + 1) hi
  else (a, i)
termination_by (hi - j).toNat
decreasing_by all_goals omega

/-- Go `quickSort(a, lo, hi)`: pivot `a[hi]`, Lomuto partition, recurse on both
sides.  The recursion is driven by fuel; every call shrinks the range, so
fuel `(hi + 1 - lo).toNat` (supplied by `quickSort` below) is always enough,
which is part of what `quickSortFuel_spec` proves. -/
def quickSortFuel : Nat → List KSUID → Int → Int → List KSUID
  | 0, a, _, _ => a
  | fuel + 1, a, lo, hi =>
    if lo < hi then
      let pr := partitionLoop a (a.getD hi.toNat KSUID.Nil) (lo - 1) lo hi
      let i := pr.2 + 1
      let a2 := listSwap pr.1 i hi
      quickSortFuel fuel (quickSortFuel fuel a2 lo (i - 1)) (i + 1) hi
    else a

def quickSort (a : List KSUID) (lo hi : Int) : List KSUID :=
  quickSortFuel (hi + 1 - lo).toNat a lo hi

/-- Go `Sort(ids)`: `quickSort(ids, 0, len(ids)-1)` (as a function on the list). -/
def Sort' (ids : List KSUID) : List KSUID :=
  quickSort ids 0 ((ids.length : Int) - 1)

/-- The `for i := 1; i < len(ids); i++` loop of `IsSorted`. -/
def isSortedFrom (ids : List KSUID) (i : Nat) : Bool :=
  if h : i < ids.length then
    if 0 < Compare (ids.getD (i - 1) KSUID.Nil) (ids.getD i KSUID.Nil) then false
    else isSortedFrom ids (i + 1)
  else true
termination_by ids.length - i

/-- Go `IsSorted(ids)`: no adjacent inversion. -/
def IsSorted (ids : List KSUID) : Bool := isSortedFrom ids 1

/-! ## List helper lemmas for the sorting proof -/

theorem getD_eq_getElem (l : List KSUID) (n : Nat) (d : KSUID) (h : n < l.length) :
    l.getD n d = l[n] := by
  induction l generalizing n with
  | nil => simp at h
  | cons x t ih =>
    cases n with
    | zero => simp [List.getD_cons_zero]
    | succ m =>
      simp only [List.getD_cons_succ, List.getElem_cons_succ]
      exact ih m (by simpa using h)

theorem cons_set_perm (x d : KSUID) :
    ∀ (t : List KSUID) (m : Nat), m < t.length →
      (t.getD m d :: t.set m x).Perm (x :: t) := by
  intro t
  induction t with
  | nil => intro m hm; simp at hm
  | cons y s ih =>
    intro m hm
    cases m with
    | zero =>
      simp only [List.getD_cons_zero, List.set_cons_zero]
      exact List.Perm.swap x y s
    | succ n =>
      simp only [List.getD_cons_succ, List.set_cons_succ]
      have h1 : (s.getD n d :: y :: s.set n x).Perm (y :: s.getD n d :: s.set n x) :=
        List.Perm.swap y (s.getD n d) (s.set n x)
      have h2 : (y :: s.getD n d :: s.set n x).Perm (y :: x :: s) :=
        List.Perm.cons y (ih n (by simpa using hm))
      have h3 : (y :: x :: s).Perm (x :: y :: s) := List.Perm.swap x y s
      exact (h1.trans h2).trans h3

theorem set_set_perm (d : KSUID) :
    ∀ (a : List KSUID) (i j : Nat), i < j → j < a.length →
      ((a.set i (a.getD j d)).set j (a.getD i d)).Perm a := by
  intro a
  induction a with
  | nil => intro i j hij hj; simp at hj
  | cons x t ih =>
    intro i j hij hj
    cases i with
    | zero =>
      obtain ⟨m, rfl⟩ : ∃ m, j = m + 1 := ⟨j - 1, by omega⟩
      simp only [List.getD_cons_succ, List.set_cons_zero, List.getD_cons_zero,
        List.set_cons_succ]
      exact cons_set_perm x d t m (by simpa using hj)
    | succ k =>
      obtain ⟨m, rfl⟩ : ∃ m, j = m + 1 := ⟨j - 1, by omega⟩
      simp only [List.getD_cons_succ, List.set_cons_succ]
      exact List.Perm.cons x (ih k m (by omega) (by simpa using hj))

theorem listSwap_perm (a : List KSUID) (i j : Int) (h0i : 0 ≤ i) (h0j : 0 ≤ j)
    (hi : i < a.length) (hj : j < a.length) : (listSwap a i j).Perm a := by
  rw [listSwap]
  have hi' : i.toNat < a.length := by omega
  have hj' : j.toNat < a.length := by omega
  rcases Nat.lt_trichotomy i.toNat j.toNat with h | h | h
  · exact set_set_perm KSUID.Nil a i.toNat j.toNat h hj'
  · rw [h, List.set_set]
    have : a.set j.toNat (a.getD j.toNat KSUID.Nil) = a := by
      apply List.ext_getElem (by simp)
      intro m h1 h2
      rw [List.getElem_set]
      split_ifs with hm
      · subst hm
        exact getD_eq_getElem _ _ _ hj'
      · rfl
    rw [this]
  · rw [List.set_comm _ _ _ (by omega)]
    exact set_set_perm KSUID.Nil a j.toNat i.toNat h hi'

theorem length_listSwap (a : List KSUID) (i j : Int) :
    (listSwap a i j).length = a.length := by
  simp [listSwap]

theorem getD_listSwap (a : List KSUID) (i j m : Int) (h0i : 0 ≤ i) (h0j : 0 ≤ j)
    (h0m : 0 ≤ m) (hi : i < a.length) (hj : j < a.length) (hm : m < a.length) :
    (listSwap a i j).getD m.toNat KSUID.Nil =
      if m = j then a.getD i.toNat KSUID.Nil
      else if m = i then a.getD j.toNat KSUID.Nil
      else a.getD m.toNat KSUID.Nil := by
  have hlen : (listSwap a i j).length = a.length := length_listSwap a i j
  have hm1 : m.toNat < (listSwap a i j).length := by omega
  rw [getD_eq_getElem _ _ _ hm1]
  have hswap : listSwap a i j =
      (a.set i.toNat (a.getD j.toNat KSUID.Nil)).set j.toNat (a.getD i.toNat KSUID.Nil) :=
    rfl
  simp only [hswap]
  rw [List.getElem_set, List.getElem_set]
  split_ifs <;> try rfl
  all_goals try omega
  all_goals rw [getD_eq_getElem _ _ _ (show m.toNat < a.length by omega)]

/-- Full invariant of the Lomuto partition loop: the result is a permutation
of the input of the same length, touching only positions in `[lo, hi)`; the
returned split index stays in `[i, hi)`; positions `[lo, split]` hold values
below the pivot and positions `(split, hi)` values not below it; and any
property of all values in `[lo, hi]` is preserved positionwise. -/
theorem partitionLoop_spec (pivot : KSUID) :
    ∀ (n : Nat) (a : List KSUID) (lo i j hi : Int),
      (hi - j).toNat ≤ n →
      0 ≤ lo → lo - 1 ≤ i → i < j → j ≤ hi → hi < (a.length : Int) →
      (∀ m : Int, lo ≤ m → m ≤ i → Compare (a.getD m.toNat KSUID.Nil) pivot < 0) →
      (∀ m : Int, i < m → m < j → ¬Compare (a.getD m.toNat KSUID.Nil) pivot < 0) →
      (partitionLoop a pivot i j hi).1.length = a.length ∧
        (partitionLoop a pivot i j hi).1.Perm a ∧
        (∀ m : Int, 0 ≤ m → m < (a.length : Int) → (m < lo ∨ hi ≤ m) →
          (partitionLoop a pivot i j hi).1.getD m.toNat KSUID.Nil =
            a.getD m.toNat KSUID.Nil) ∧
        (i ≤ (partitionLoop a pivot i j hi).2 ∧ (partitionLoop a pivot i j hi).2 < hi) ∧
        (∀ m : Int, lo ≤ m → m ≤ (partitionLoop a pivot i j hi).2 →
          Compare ((partitionLoop a pivot i j hi).1.getD m.toNat KSUID.Nil) pivot < 0) ∧
        (∀ m : Int, (partitionLoop a pivot i j hi).2 < m → m < hi →
          ¬Compare ((partitionLoop a pivot i j hi).1.getD m.toNat KSUID.Nil) pivot < 0) ∧
        (∀ P : KSUID → Prop,
          (∀ m : Int, lo ≤ m → m ≤ hi → P (a.getD m.toNat KSUID.Nil)) →
          ∀ m : Int, lo ≤ m → m ≤ hi →
            P ((partitionLoop a pivot i j hi).1.getD m.toNat KSUID.Nil)) := by
  intro n
  induction n with
  | zero =>
    intro a lo i j hi hn h0lo hloi hij hjhi hhilen inv1 inv2
    have hj : ¬j < hi := by omega
    rw [partitionLoop, dif_neg hj]
    refine ⟨rfl, List.Perm.refl a, fun m _ _ _ => rfl, ⟨le_refl i, by omega⟩, inv1,
      fun m hm1 hm2 => inv2 m hm1 (by omega), fun P hP m hm1 hm2 => hP m hm1 hm2⟩
  | succ n ih =>
    intro a lo i j hi hn h0lo hloi hij hjhi hhilen inv1 inv2
    by_cases hj : j < hi
    · rw [partitionLoop, dif_pos hj]
      by_cases hcmp : Compare (a.getD j.toNat KSUID.Nil) pivot < 0
      · rw [if_pos hcmp]
        have hlen1 : (listSwap a (i + 1) j).length = a.length := length_listSwap a (i + 1) j
        have hget : ∀ m : Int, 0 ≤ m → m < (a.length : Int) →
            (listSwap a (i + 1) j).getD m.toNat KSUID.Nil =
              (if m = j then a.getD (i + 1).toNat KSUID.Nil
               else if m = i + 1 then a.getD j.toNat KSUID.Nil
               else a.getD m.toNat KSUID.Nil) := by
          intro m h0m hmlen
          exact getD_listSwap a (i + 1) j m (by omega) (by omega) h0m (by omega)
            (by omega) (by omega)
        have inv1' : ∀ m : Int, lo ≤ m → m ≤ i + 1 →
            Compare ((listSwap a (i + 1) j).getD m.toNat KSUID.Nil) pivot < 0 := by
          intro m hm1 hm2
          rw [hget m (by omega) (by omega)]
          by_cases hmj : m = j
          · rw [if_pos hmj]
            have : i + 1 = j := by omega
            rw [this]
            exact hcmp
          · rw [if_neg hmj]
            by_cases hmi : m = i + 1
            · rw [if_pos hmi]
              exact hcmp
            · rw [if_neg hmi]
              exact inv1 m hm1 (by omega)
        have inv2' : ∀ m : Int, i + 1 < m → m < j + 1 →
            ¬Compare ((listSwap a (i + 1) j).getD m.toNat KSUID.Nil) pivot < 0 := by
          intro m hm1 hm2
          rw [hget m (by omega) (by omega)]
          by_cases hmj : m = j
          · rw [if_pos hmj]
            exact inv2 (i + 1) (by omega) (by omega)
          · rw [if_neg hmj, if_neg (by omega : ¬m = i + 1)]
            exact inv2 m (by omega) (by omega)
        obtain ⟨rlen, rperm, rframe, rbounds, rinv1, rinv2, rprop⟩ :=
          ih (listSwap a (i + 1) j) lo (i + 1) (j + 1) hi (by omega) h0lo (by omega)
            (by omega) (by omega) (by omega) inv1' inv2'
        have hswapperm : (listSwap a (i + 1) j).Perm a :=
          listSwap_perm a (i + 1) j (by omega) (by omega) (by omega) (by omega)
        refine ⟨by rw [rlen, hlen1], rperm.trans hswapperm, ?_, ⟨by omega, rbounds.2⟩,
          rinv1, rinv2, ?_⟩
        · intro m h0m hmlen hout
          rw [rframe m h0m (by omega) hout]
          rw [hget m h0m hmlen]
          rw [if_neg (by omega : ¬m = j), if_neg (by omega : ¬m = i + 1)]
        · intro P hP m hm1 hm2
          apply rprop P ?_ m hm1 hm2
          intro m2 hm21 hm22
          rw [hget m2 (by omega) (by omega)]
          by_cases hmj : m2 = j
          · rw [if_pos hmj]
            exact hP (i + 1) (by omega) (by omega)
          · rw [if_neg hmj]
            by_cases hmi : m2 = i + 1
            · rw [if_pos hmi]
              exact hP j (by omega) (by omega)
            · rw [if_neg hmi]
              exact hP m2 hm21 hm22
      · rw [if_neg hcmp]
        have inv2' : ∀ m : Int, i < m → m < j + 1 →
            ¬Compare (a.getD m.toNat KSUID.Nil) pivot < 0 := by
          intro m hm1 hm2
          by_cases hmj : m = j
          · rw [hmj]
            exact hcmp
          · exact inv2 m hm1 (by omega)
        exact ih a lo i (j + 1) hi (by omega) h0lo hloi (by omega) (by omega) hhilen
          inv1 inv2'
    · rw [partitionLoop, dif_neg hj]
      refine ⟨rfl, List.Perm.refl a, fun m _ _ _ => rfl, ⟨le_refl i, by omega⟩, inv1,
        fun m hm1 hm2 => inv2 m hm1 (by omega), fun P hP m hm1 hm2 => hP m hm1 hm2⟩

/-- Full specification of the fuelled quicksort: with fuel at least the
range's size it preserves length, permutes the list, leaves positions
outside `[lo, hi]` untouched, preserves any positionwise property of the
range, and sorts the range. -/
theorem quickSortFuel_spec :
    ∀ (fuel : Nat) (a : List KSUID) (lo hi : Int),
      0 ≤ lo → hi < (a.length : Int) → (hi + 1 - lo).toNat ≤ fuel →
      (quickSortFuel fuel a lo hi).length = a.length ∧
        (quickSortFuel fuel a lo hi).Perm a ∧
        (∀ m : Int, 0 ≤ m → m < (a.length : Int) → (m < lo ∨ hi < m) →
          (quickSortFuel fuel a lo hi).getD m.toNat KSUID.Nil =
            a.getD m.toNat KSUID.Nil) ∧
        (∀ P : KSUID → Prop,
          (∀ m : Int, lo ≤ m → m ≤ hi → P (a.getD m.toNat KSUID.Nil)) →
          ∀ m : Int, lo ≤ m → m ≤ hi →
            P ((quickSortFuel fuel a lo hi).getD m.toNat KSUID.Nil)) ∧
        (∀ m1 m2 : Int, lo ≤ m1 → m1 ≤ m2 → m2 ≤ hi →
          Compare ((quickSortFuel fuel a lo hi).getD m1.toNat KSUID.Nil)
            ((quickSortFuel fuel a lo hi).getD m2.toNat KSUID.Nil) ≤ 0) := by
  intro fuel
  induction fuel with
  | zero =>
    intro a lo hi h0lo hlen hfuel
    refine ⟨rfl, List.Perm.refl a, fun m _ _ _ => rfl, fun P hP m hm1 hm2 => hP m hm1 hm2,
      fun m1 m2 h1 h2 h3 => ?_⟩
    have : m1 = m2 := by omega
    subst this
    rw [compare_le_zero_iff]
  | succ n ih =>
    intro a lo hi h0lo hlen hfuel
    by_cases hlt : lo < hi
    · obtain ⟨plen, pperm, pframe, pbounds, pinv1, pinv2, pprop⟩ :=
        partitionLoop_spec (a.getD hi.toNat KSUID.Nil) (hi - lo).toNat a lo (lo - 1) lo hi
          (by omega) h0lo (by omega) (by omega) (by omega) hlen
          (fun m hm1 hm2 => absurd hm2 (by omega))
          (fun m hm1 hm2 => absurd hm2 (by omega))
      set pr := partitionLoop a (a.getD hi.toNat KSUID.Nil) (lo - 1) lo hi with hpr
      set p := pr.2 + 1 with hp
      set a2 := listSwap pr.1 p hi with ha2
      have key : quickSortFuel (n + 1) a lo hi =
          quickSortFuel n (quickSortFuel n a2 lo (p - 1)) (p + 1) hi := by
        rw [quickSortFuel, if_pos hlt]
      have hplo : lo ≤ p := by omega
      have hphi : p ≤ hi := by omega
      have len2 : a2.length = a.length := by
        rw [ha2, length_listSwap, plen]
      have perm2 : a2.Perm a := by
        refine (listSwap_perm pr.1 p hi (by omega) (by omega) (by omega) (by omega)).trans pperm
      have hget2 : ∀ m : Int, 0 ≤ m → m < (a.length : Int) →
          a2.getD m.toNat KSUID.Nil =
            (if m = hi then pr.1.getD p.toNat KSUID.Nil
             else if m = p then pr.1.getD hi.toNat KSUID.Nil
             else pr.1.getD m.toNat KSUID.Nil) := by
        intro m h0m hmlen
        exact getD_listSwap pr.1 p hi m (by omega) (by omega) h0m (by omega) (by omega)
          (by omega)
      have hpiv : a2.getD p.toNat KSUID.Nil = a.getD hi.toNat KSUID.Nil := by
        rw [hget2 p (by omega) (by omega)]
        by_cases hph : p = hi
        · rw [if_pos hph, hph]
          exact pframe hi (by omega) (by omega) (by omega)
        · rw [if_neg hph, if_pos rfl]
          exact pframe hi (by omega) (by omega) (by omega)
      have frame2 : ∀ m : Int, 0 ≤ m → m < (a.length : Int) → (m < lo ∨ hi < m) →
          a2.getD m.toNat KSUID.Nil = a.getD m.toNat KSUID.Nil := by
        intro m h0m hmlen hout
        rw [hget2 m h0m hmlen, if_neg (by omega : ¬m = hi), if_neg (by omega : ¬m = p)]
        exact pframe m h0m hmlen (by omega)
      have left2 : ∀ m : Int, lo ≤ m → m < p →
          Compare (a2.getD m.toNat KSUID.Nil) (a.getD hi.toNat KSUID.Nil) < 0 := by
        intro m hm1 hm2
        rw [hget2 m (by omega) (by omega), if_neg (by omega : ¬m = hi),
          if_neg (by omega : ¬m = p)]
        exact pinv1 m hm1 (by omega)
      have right2 : ∀ m : Int, p < m → m ≤ hi →
          ¬Compare (a2.getD m.toNat KSUID.Nil) (a.getD hi.toNat KSUID.Nil) < 0 := by
        intro m hm1 hm2
        by_cases hmhi : m = hi
        · rw [hget2 m (by omega) (by omega), if_pos hmhi]
          exact pinv2 p (by omega) (by omega)
        · rw [hget2 m (by omega) (by omega), if_neg hmhi, if_neg (by omega : ¬m = p)]
          exact pinv2 m (by omega) (by omega)
      have prop2 : ∀ P : KSUID → Prop,
          (∀ m : Int, lo ≤ m → m ≤ hi → P (a.getD m.toNat KSUID.Nil)) →
          ∀ m : Int, lo ≤ m → m ≤ hi → P (a2.getD m.toNat KSUID.Nil) := by
        intro P hP m hm1 hm2
        have hPp : ∀ m2 : Int, lo ≤ m2 → m2 ≤ hi → P (pr.1.getD m2.toNat KSUID.Nil) :=
          pprop P hP
        rw [hget2 m (by omega) (by omega)]
        by_cases hmhi : m = hi
        · rw [if_pos hmhi]
          exact hPp p (by omega) (by omega)
        · rw [if_neg hmhi]
          by_cases hmp : m = p
          · rw [if_pos hmp]
            exact hPp hi (by omega) (by omega)
          · rw [if_neg hmp]
            exact hPp m hm1 hm2
      obtain ⟨Llen, Lperm, Lframe, Lprop, Lsort⟩ :=
        ih a2 lo (p - 1) h0lo (by omega) (by omega)
      set L := quickSortFuel n a2 lo (p - 1) with hL
      obtain ⟨Rlen, Rperm, Rframe, Rprop, Rsort⟩ :=
        ih L (p + 1) hi (by omega) (by omega) (by omega)
      set R := quickSortFuel n L (p + 1) hi with hR
      rw [key]
      have hLlen : L.length = a.length := by rw [Llen, len2]
      have hRlen : R.length = a.length := by rw [Rlen, hLlen]
      have hRL : ∀ m : Int, 0 ≤ m → m < (a.length : Int) → (m < p + 1 ∨ hi < m) →
          R.getD m.toNat KSUID.Nil = L.getD m.toNat KSUID.Nil := by
        intro m h0m hmlen hout
        exact Rframe m h0m (by omega) hout
      have hLa2 : ∀ m : Int, 0 ≤ m → m < (a.length : Int) → (m < lo ∨ p - 1 < m) →
          L.getD m.toNat KSUID.Nil = a2.getD m.toNat KSUID.Nil := by
        intro m h0m hmlen hout
        exact Lframe m h0m (by omega) hout
      refine ⟨hRlen, (Rperm.trans Lperm).trans perm2, ?_, ?_, ?_⟩
      · intro m h0m hmlen hout
        rw [hRL m h0m hmlen (by omega), hLa2 m h0m hmlen (by omega),
          frame2 m h0m hmlen hout]
      · intro P hP m hm1 hm2
        have hP2 : ∀ m : Int, lo ≤ m → m ≤ hi → P (a2.getD m.toNat KSUID.Nil) :=
          prop2 P hP
        have hPL : ∀ m : Int, lo ≤ m → m ≤ hi → P (L.getD m.toNat KSUID.Nil) := by
          intro m2 hm21 hm22
          by_cases hm2p : m2 ≤ p - 1
          · exact Lprop P (fun m3 hm31 hm32 => hP2 m3 hm31 (by omega)) m2 hm21 hm2p
          · rw [hLa2 m2 (by omega) (by omega) (by omega)]
            exact hP2 m2 hm21 hm22
        by_cases hmp : p + 1 ≤ m
        · exact Rprop P (fun m3 hm31 hm32 => hPL m3 (by omega) hm32) m hmp hm2
        · rw [hRL m (by omega) (by omega) (by omega)]
          exact hPL m hm1 hm2
      · intro m1 m2 hm1 hmm hm2
        have hpivR : R.getD p.toNat KSUID.Nil = a.getD hi.toNat KSUID.Nil := by
          rw [hRL p (by omega) (by omega) (by omega),
            hLa2 p (by omega) (by omega) (by omega), hpiv]
        have hleftR : ∀ m : Int, lo ≤ m → m < p →
            Compare (R.getD m.toNat KSUID.Nil) (a.getD hi.toNat KSUID.Nil) < 0 := by
          intro m hma hmb
          rw [hRL m (by omega) (by omega) (by omega)]
          exact Lprop (fun x => Compare x (a.getD hi.toNat KSUID.Nil) < 0)
            (fun m3 hm31 hm32 => left2 m3 hm31 (by omega)) m hma (by omega)
        have hrightR : ∀ m : Int, p < m → m ≤ hi →
            ¬Compare (R.getD m.toNat KSUID.Nil) (a.getD hi.toNat KSUID.Nil) < 0 := by
          intro m hma hmb
          exact Rprop (fun x => ¬Compare x (a.getD hi.toNat KSUID.Nil) < 0)
            (fun m3 hm31 hm32 => by
              rw [hLa2 m3 (by omega) (by omega) (by omega)]
              exact right2 m3 (by omega) hm32) m (by omega) hmb
        have hsortL : ∀ n1 n2 : Int, lo ≤ n1 → n1 ≤ n2 → n2 ≤ p - 1 →
            Compare (R.getD n1.toNat KSUID.Nil) (R.getD n2.toNat KSUID.Nil) ≤ 0 := by
          intro n1 n2 ha1 ha2 ha3
          rw [hRL n1 (by omega) (by omega) (by omega), hRL n2 (by omega) (by omega)
            (by omega)]
          exact Lsort n1 n2 ha1 ha2 ha3
        rw [compare_le_zero_iff]
        by_cases hc1 : m2 ≤ p - 1
        · have := hsortL m1 m2 hm1 hmm hc1
          rw [compare_le_zero_iff] at this
          exact this
        · by_cases hc2 : p + 1 ≤ m1
          · have := Rsort m1 m2 hc2 hmm hm2
            rw [compare_le_zero_iff] at this
            exact this
          · -- m1 ≤ p ≤ m2 (with at least one not equal handled uniformly)
            have hv1 : ksuidVal (R.getD m1.toNat KSUID.Nil) ≤
                ksuidVal (a.getD hi.toNat KSUID.Nil) := by
              by_cases hm1p : m1 = p
              · rw [hm1p, hpivR]
              · have := hleftR m1 hm1 (by omega)
                rw [compare_lt_zero_iff] at this
                omega
            have hv2 : ksuidVal (a.getD hi.toNat KSUID.Nil) ≤
                ksuidVal (R.getD m2.toNat KSUID.Nil) := by
              by_cases hm2p : m2 = p
              · rw [hm2p, hpivR]
              · have := hrightR m2 (by omega) hm2
                rw [compare_lt_zero_iff] at this
                omega
            omega
    · rw [quickSortFuel, if_neg hlt]
      refine ⟨rfl, List.Perm.refl a, fun m _ _ _ => rfl,
        fun P hP m hm1 hm2 => hP m hm1 hm2, fun m1 m2 h1 h2 h3 => ?_⟩
      have : m1 = m2 := by omega
      subst this
      rw [compare_le_zero_iff]

theorem isSortedFrom_spec (ids : List KSUID) :
    ∀ (n i : Nat), ids.length - i ≤ n →
      (isSortedFrom ids i = true ↔
        ∀ m : Nat, i ≤ m → m < ids.length →
          Compare (ids.getD (m - 1) KSUID.Nil) (ids.getD m KSUID.Nil) ≤ 0) := by
  intro n
  induction n with
  | zero =>
    intro i hn
    have hi : ¬i < ids.length := by omega
    rw [isSortedFrom, dif_neg hi]
    constructor
    · intro _ m hm1 hm2
      exact absurd hm2 (by omega)
    · intro _
      rfl
  | succ n ih =>
    intro i hn
    by_cases hi : i < ids.length
    · rw [isSortedFrom, dif_pos hi]
      by_cases hcmp : 0 < Compare (ids.getD (i - 1) KSUID.Nil) (ids.getD i KSUID.Nil)
      · rw [if_pos hcmp]
        constructor
        · intro hfalse
          exact absurd hfalse (by simp)
        · intro hall
          exact absurd (hall i (le_refl i) hi) (by omega)
      · rw [if_neg hcmp, ih (i + 1) (by omega)]
        constructor
        · intro hall m hm1 hm2
          by_cases hmi : m = i
          · rw [hmi]
            omega
          · exact hall m (by omega) hm2
        · intro hall m hm1 hm2
          exact hall m (by omega) hm2
    · rw [isSortedFrom, dif_neg hi]
      constructor
      · intro _ m hm1 hm2
        exact absurd hm2 (by omega)
      · intro _
        rfl

/-- C8: `Sort` returns a permutation of its input on which `IsSorted` is
true, and `IsSorted` is true exactly when every adjacent pair satisfies
`Compare(ids[i-1], ids[i]) <= 0`. -/
theorem sort_spec (ids : List KSUID) :
    (Sort' ids).Perm ids ∧ IsSorted (Sort' ids) = true ∧
      (IsSorted ids = true ↔
        ∀ i : Nat, 1 ≤ i → i < ids.length →
          Compare (ids.getD (i - 1) KSUID.Nil) (ids.getD i KSUID.Nil) ≤ 0) := by
  have hSort : Sort' ids =
      quickSortFuel ((ids.length : Int) - 1 + 1 - 0).toNat ids 0 ((ids.length : Int) - 1) := by
    rw [Sort', quickSort]
  obtain ⟨slen, sperm, sframe, sprop, ssort⟩ :=
    quickSortFuel_spec ((ids.length : Int) - 1 + 1 - 0).toNat ids 0 ((ids.length : Int) - 1)
      (by omega) (by omega) (le_refl _)
  rw [← hSort] at slen sperm ssort
  refine ⟨sperm, ?_, ?_⟩
  · rw [IsSorted, isSortedFrom_spec (Sort' ids) (Sort' ids).length 1 (by omega)]
    intro m hm1 hm2
    rw [slen] at hm2
    have h := ssort ((m : Int) - 1) (m : Int) (by omega) (by omega) (by omega)
    have e1 : ((m : Int) - 1).toNat = m - 1 := by omega
    have e2 : ((m : Int)).toNat = m := by omega
    rw [e1, e2] at h
    exact h
  · rw [IsSorted, isSortedFrom_spec ids ids.length 1 (by omega)]
